import Mathlib

/-!
# GenericSpecializer: the driver `specializeAppliesInFunction`

A shallow embedding of `lib/SILOptimizer/Transforms/GenericSpecializer.cpp`.

Instructions and functions are pointers in the source; here they are
identities (`Nat`).  Everything the driver reads through a pointer
(`ApplySite::isa`, `hasSubstitutions`, `getReferencedFunctionOrNull`,
`isDefinition`, `canOptimize`, `shouldOptimize`, the blocks of `F`) is read
from the current state of the SIL module, a value of an arbitrary type `σ`,
through the interface `SIL σ`.  The two utilities that mutate the module,
`trySpecializeApplyOfGeneric` and `recursivelyDeleteTriviallyDeadInstructions`,
are fields of the same interface: they are declared in other files.

Every call the driver makes on its containers and collaborators is recorded as
an `Event`, in program order.
-/

namespace GenericSpecializer

/-- Identity of a `SILInstruction *`. -/
abbrev Inst := Nat

/-- Identity of a `SILFunction *`. -/
abbrev Fn := Nat

/-- Outputs of one call of `trySpecializeApplyOfGeneric`: the module after the
call, the `DeadApplies.insert` calls it made (in order) and the
`NewFunctions.push_back` calls it made (in order). -/
structure EngineResult (σ : Type) where
  F : σ
  DeadApplies : List Inst
  NewFunctions : List Fn

/-- What the driver uses from the rest of the compiler, over a module state `σ`. -/
structure SIL (σ : Type) where
  /-- The blocks of `F`, each as its instructions from top to bottom: what
  `for (auto &BB : F)` and `BB.rbegin() .. BB.rend()` walk. -/
  blocks : σ → List (List Inst)
  /-- Whether `ApplySite::isa(I)` is non-null. -/
  isApply : σ → Inst → Bool
  /-- The value of `Apply.hasSubstitutions()`. -/
  hasSubstitutions : σ → Inst → Bool
  /-- The value of `Apply.getReferencedFunctionOrNull()`. -/
  getReferencedFunctionOrNull : σ → Inst → Option Fn
  /-- The value of `Callee->isDefinition()`. -/
  isDefinition : σ → Fn → Bool
  /-- The value of `Apply.canOptimize()`. -/
  canOptimize : σ → Inst → Bool
  /-- The value of `Callee->shouldOptimize()`. -/
  shouldOptimize : σ → Fn → Bool
  /-- The call `trySpecializeApplyOfGeneric(FunctionBuilder, Apply, DeadApplies,
  NewFunctions, ORE)`, made with both output containers empty. -/
  trySpecializeApplyOfGeneric : σ → Inst → EngineResult σ
  /-- The call `recursivelyDeleteTriviallyDeadInstructions(AI, true)`. -/
  recursivelyDeleteTriviallyDeadInstructions : σ → Inst → σ

/-- The calls made by `specializeAppliesInFunction`, in program order. -/
inductive Event where
  /-- Line 84: the reverse scan reaches `I`. -/
  | visit (I : Inst)
  /-- Lines 98-103: `ORE.emit(RemarkMissed("NoDef", *I) << ... Callee ...)`. -/
  | remarkMissed (I : Inst) (Callee : Fn)
  /-- Line 108: `Applies.insert(I)`. -/
  | insert (I : Inst)
  /-- Line 117: `Applies.pop_back_val()` returned `I`. -/
  | pop (I : Inst)
  /-- Lines 136-137: the engine was called on `I`; on return `DeadApplies`
  and `NewFunctions` hold the given sequences. -/
  | trySpecialize (I : Inst) (DeadApplies : List Inst) (NewFunctions : List Fn)
  /-- Line 166: `Applies.remove(AI)`. -/
  | remove (AI : Inst)
  /-- Line 168: `recursivelyDeleteTriviallyDeadInstructions(AI, true)`. -/
  | delete (AI : Inst)
  /-- Line 178: `addFunctionToPassManagerWorklist(NewF, Callee)`. -/
  | enqueue (NewF : Fn) (Callee : Fn)
  deriving DecidableEq, Repr

/-- The method `llvm::SetVector::insert`: append unless already present. -/
def SetVector.insert (s : List Inst) (x : Inst) : List Inst :=
  if x ∈ s then s else s ++ [x]

/-- The method `llvm::SetVector::remove`: erase the element if present, keeping
the order of the others. -/
def SetVector.remove (s : List Inst) (x : Inst) : List Inst :=
  s.erase x

/-- The local variables of `specializeAppliesInFunction` that outlive one
statement, with the module they act on.  `assertFailed` is set when one of the
two `assert`s of lines 119 and 121 fails; nothing runs after that. -/
structure Driver (σ : Type) where
  F : σ
  Applies : List Inst
  Changed : Bool
  assertFailed : Bool

/-- Lines 59-63: the driver's variables on entry to the first block of `F`. -/
def entryState {σ : Type} (F : σ) : Driver σ :=
  { F := F, Applies := [], Changed := false, assertFailed := false }

/-- Lines 84-108: the body of the scan loop for one instruction `I`. -/
def scanInst {σ : Type} (sil : SIL σ) (F : σ) (Applies : List Inst) (I : Inst) :
    List Inst × List Event :=
  if !sil.isApply F I || !sil.hasSubstitutions F I then
    (Applies, [Event.visit I])
  else
    match sil.getReferencedFunctionOrNull F I with
    | none => (Applies, [Event.visit I])
    | some Callee =>
      if !sil.isDefinition F Callee then
        (Applies, [Event.visit I, Event.remarkMissed I Callee])
      else
        (SetVector.insert Applies I, [Event.visit I, Event.insert I])

/-- Lines 83-109: the scan loop.  The list argument is the block as the
reverse iterator walks it, last instruction first. -/
def scanBlock {σ : Type} (sil : SIL σ) (F : σ) :
    List Inst → List Inst → List Inst × List Event
  | [], Applies => (Applies, [])
  | I :: rest, Applies =>
    let r := scanInst sil F Applies I
    let r2 := scanBlock sil F rest r.1
    (r2.1, r.2 ++ r2.2)

/-- Lines 142-170: the drain loop.  The list argument is `DeadApplies` as
`pop_back_val` empties it, last element first. -/
def drainDead {σ : Type} (sil : SIL σ) : List Inst → Driver σ → Driver σ × List Event
  | [], st => (st, [])
  | AI :: rest, st =>
    let st1 : Driver σ :=
      { st with
        Applies := SetVector.remove st.Applies AI
        F := sil.recursivelyDeleteTriviallyDeadInstructions st.F AI
        Changed := true }
    let r := drainDead sil rest st1
    (r.1, [Event.remove AI, Event.delete AI] ++ r.2)

/-- Lines 118-179: the body of the attempt loop after `I` has been popped. -/
def attemptBody {σ : Type} (sil : SIL σ) (st : Driver σ) (I : Inst) :
    Driver σ × List Event :=
  if !sil.isApply st.F I then
    ({ st with assertFailed := true }, [])
  else
    match sil.getReferencedFunctionOrNull st.F I with
    | none => ({ st with assertFailed := true }, [])
    | some Callee =>
      if !sil.canOptimize st.F I || !sil.shouldOptimize st.F Callee then
        (st, [])
      else
        let out := sil.trySpecializeApplyOfGeneric st.F I
        let DeadApplies := out.DeadApplies.foldl SetVector.insert []
        let r := drainDead sil DeadApplies.reverse { st with F := out.F }
        (r.1, [Event.trySpecialize I DeadApplies out.NewFunctions] ++ r.2
              ++ out.NewFunctions.reverse.map (fun NewF => Event.enqueue NewF Callee))

/-- Lines 115-180: the attempt loop `while (!Applies.empty())`.  The first
argument bounds the number of iterations; `processBlock` passes the size of the
work set, which `attemptLoop_drains` shows to be enough. -/
def attemptLoop {σ : Type} (sil : SIL σ) : Nat → Driver σ → Driver σ × List Event
  | 0, st => (st, [])
  | fuel + 1, st =>
    match st.Applies.getLast? with
    | none => (st, [])
    | some I =>
      let r := attemptBody sil { st with Applies := st.Applies.dropLast } I
      if r.1.assertFailed then
        (r.1, Event.pop I :: r.2)
      else
        let r2 := attemptLoop sil fuel r.1
        (r2.1, Event.pop I :: r.2 ++ r2.2)

/-- Lines 64-181: the body of `for (auto &BB : F)` for the block at index `k`,
read from the module as it is when the loop reaches it. -/
def processBlock {σ : Type} (sil : SIL σ) (st : Driver σ) (k : Nat) :
    Driver σ × List Event :=
  if st.assertFailed then
    (st, [])
  else
    let BB := (sil.blocks st.F).getD k []
    let s := scanBlock sil st.F BB.reverse st.Applies
    let r := attemptLoop sil s.1.length { st with Applies := s.1 }
    (r.1, s.2 ++ r.2)

/-- The loop `for (auto &BB : F)` over the given block indices. -/
def blockLoop {σ : Type} (sil : SIL σ) : List Nat → Driver σ → Driver σ × List Event
  | [], st => (st, [])
  | k :: ks, st =>
    let r := processBlock sil st k
    let r2 := blockLoop sil ks r.1
    (r2.1, r.2 ++ r2.2)

/-- Lines 57-184.  The engine and the deletion utility rewrite instructions
inside blocks; they do not create or erase blocks of `F`, so the range-for
visits the blocks `F` has on entry, each read when it is reached.  The value
returned at line 183 is `Changed` of the final state. -/
def specializeAppliesInFunction {σ : Type} (sil : SIL σ) (F : σ) :
    Driver σ × List Event :=
  blockLoop sil (List.range (sil.blocks F).length) (entryState F)

/-! ## A concrete module state

Used to run the driver on explicit inputs, and to state what the deletion
utility deletes. -/

/-- What the driver and the deletion utility read off one instruction. -/
structure SILInstruction where
  isApply : Bool
  hasSubstitutions : Bool
  Callee : Option Fn
  canOptimize : Bool
  /-- The instructions that produce the values this one uses. -/
  operands : List Inst

/-- A module state: the blocks of `F` (each a list of instruction identities,
top to bottom), the instruction table, and the two per-function flags. -/
structure SILModule where
  blocks : List (List Inst)
  inst : Inst → SILInstruction
  isDefinition : Fn → Bool
  shouldOptimize : Fn → Bool

/-- The instructions currently in `F`. -/
def SILModule.insts (M : SILModule) : List Inst :=
  M.blocks.flatten

/-- Number of uses of the value produced by `p` among the instructions in `F`. -/
def useCount (M : SILModule) (p : Inst) : Nat :=
  (M.insts.map (fun u => (M.inst u).operands.count p)).sum

/-- Unlink `I` from its block. -/
def eraseFromParent (M : SILModule) (I : Inst) : SILModule :=
  { M with blocks := M.blocks.map (fun b => b.erase I) }

/-- Modelled from the spec: the body of `recursivelyDeleteTriviallyDeadInstructions`
(InstOptUtils.cpp), which is not among the sources.  Section 4.4: deleting an
instruction decrements the use count of each of its operands' producers, and a
producer whose use count reaches zero is itself deleted by the same rule,
recursively, bounded to the current function.  Written as the stack-based
traversal of section 9; the first argument bounds the number of steps. -/
def deleteCascade : Nat → List Inst → SILModule → SILModule
  | 0, _, M => M
  | _ + 1, [], M => M
  | fuel + 1, I :: rest, M =>
    let M1 := eraseFromParent M I
    let dead := (M.inst I).operands.dedup.filter
      (fun p => decide (p ∈ M1.insts) && decide (useCount M1 p = 0))
    deleteCascade fuel (dead ++ rest) M1

/-- Modelled from the spec: `recursivelyDeleteTriviallyDeadInstructions(AI, true)`
(InstOptUtils.cpp), which is not among the sources.  With `Force` set the root
`AI` is deleted whatever its uses; the cascade of section 4.4 follows. -/
def recursivelyDeleteTriviallyDeadInstructions (M : SILModule) (AI : Inst) : SILModule :=
  deleteCascade (M.insts.length + 1) [AI] M

/-- The interface `SIL` over `SILModule`, for a given specialization engine. -/
def moduleSIL (engine : SILModule → Inst → EngineResult SILModule) : SIL SILModule where
  blocks := fun M => M.blocks
  isApply := fun M I => (M.inst I).isApply
  hasSubstitutions := fun M I => (M.inst I).hasSubstitutions
  getReferencedFunctionOrNull := fun M I => (M.inst I).Callee
  isDefinition := fun M f => M.isDefinition f
  canOptimize := fun M I => (M.inst I).canOptimize
  shouldOptimize := fun M f => M.shouldOptimize f
  trySpecializeApplyOfGeneric := engine
  recursivelyDeleteTriviallyDeadInstructions := recursivelyDeleteTriviallyDeadInstructions

/-- The instruction `%I = apply %f<T>(operands)`, also standing for a
`partial_apply`: an apply site with substitutions that references `f`. -/
def genericApply (f : Fn) (operands : List Inst) : SILInstruction :=
  { isApply := true, hasSubstitutions := true, Callee := some f,
    canOptimize := true, operands := operands }

/-- The instruction `%I = apply %f(operands)`: an apply site without
substitutions that references `f`. -/
def plainApply (f : Fn) (operands : List Inst) : SILInstruction :=
  { isApply := true, hasSubstitutions := false, Callee := some f,
    canOptimize := true, operands := operands }

/-- An instruction that is not an apply site. -/
def otherInst (operands : List Inst) : SILInstruction :=
  { isApply := false, hasSubstitutions := false, Callee := none,
    canOptimize := false, operands := operands }

/-- An engine that declines every call site: no rewrite, both outputs empty. -/
def declineEngine (M : SILModule) (_ : Inst) : EngineResult SILModule :=
  { F := M, DeadApplies := [], NewFunctions := [] }

/-- An engine that specializes every call site it is given: it reports the call
site dead and one new function, numbered after the call site. -/
def cloneEngine (M : SILModule) (I : Inst) : EngineResult SILModule :=
  { F := M, DeadApplies := [I], NewFunctions := [100 + I] }

/-! ## Reading the record of calls -/

/-- Section 4.1 of the spec, `isCandidate`: a call site with at least one type
substitution and a statically known callee that has a visible definition. -/
def isCandidate {σ : Type} (sil : SIL σ) (F : σ) (I : Inst) : Bool :=
  sil.isApply F I && sil.hasSubstitutions F I &&
    (match sil.getReferencedFunctionOrNull F I with
     | some Callee => sil.isDefinition F Callee
     | none => false)

/-- The instructions the scan reached, in order. -/
def visitsOf (log : List Event) : List Inst :=
  log.filterMap (fun e => match e with | Event.visit I => some I | _ => none)

/-- The arguments of the `Applies.insert` calls, in order. -/
def insertsOf (log : List Event) : List Inst :=
  log.filterMap (fun e => match e with | Event.insert I => some I | _ => none)

/-- The instructions popped from the work set, in order. -/
def popsOf (log : List Event) : List Inst :=
  log.filterMap (fun e => match e with | Event.pop I => some I | _ => none)

/-- The call sites passed to the engine, in order. -/
def attemptsOf (log : List Event) : List Inst :=
  log.filterMap (fun e => match e with | Event.trySpecialize I _ _ => some I | _ => none)

/-- The `addFunctionToPassManagerWorklist` calls, in order, as pairs
`(NewF, Callee)`. -/
def enqueuesOf (log : List Event) : List (Fn × Fn) :=
  log.filterMap (fun e => match e with | Event.enqueue f c => some (f, c) | _ => none)

/-- Whether some engine call in the record left a non-empty dead set. -/
def someDead (log : List Event) : Bool :=
  log.any (fun e => match e with | Event.trySpecialize _ D _ => !D.isEmpty | _ => false)

/-- Whether the record holds a call of the deletion utility. -/
def someDeleted (log : List Event) : Bool :=
  log.any (fun e => match e with | Event.delete _ => true | _ => false)

/-- The contents of `DeadApplies` when the engine call on `I` returns: the set
vector built from the engine's `insert` calls. -/
def deadAppliesOf {σ : Type} (sil : SIL σ) (F : σ) (I : Inst) : List Inst :=
  (sil.trySpecializeApplyOfGeneric F I).DeadApplies.foldl SetVector.insert []

/-- The contents of `NewFunctions` when the engine call on `I` returns. -/
def newFunctionsOf {σ : Type} (sil : SIL σ) (F : σ) (I : Inst) : List Fn :=
  (sil.trySpecializeApplyOfGeneric F I).NewFunctions

/-- The calls of the drain loop on a dead set, given from its first element to
its last: the loop pops from the back. -/
def drainEvents (DeadApplies : List Inst) : List Event :=
  DeadApplies.reverse.flatMap (fun AI => [Event.remove AI, Event.delete AI])

/-- The calls of the reschedule loop of lines 175-179. -/
def enqueueEvents (NewFunctions : List Fn) (Callee : Fn) : List Event :=
  NewFunctions.reverse.map (fun NewF => Event.enqueue NewF Callee)

/-! ## Explicit inputs -/

/-- One block holding the single instruction `%0 = apply %9()`: a call without
substitutions of function `9`, which is declared but has no body. -/
def plainCallOfDeclaration : SILModule :=
  { blocks := [[0]]
    inst := fun _ => plainApply 9 []
    isDefinition := fun f => f != 9
    shouldOptimize := fun _ => true }

/-- One block, top to bottom: `%0 = partial_apply %7<T>()`,
`%1 = partial_apply %8<T>()`, `%2 = apply %0(%1)`, `strong_release %0`.
Instructions `0` and `1` are apply sites with substitutions; instruction `2`
calls the closure produced by `0`, has no substitutions of its own and is the
only user of `1`; instruction `3` is a second user of `0`. -/
def closureUser : SILModule :=
  { blocks := [[0, 1, 2, 3]]
    inst := fun i =>
      if i = 0 then genericApply 7 []
      else if i = 1 then genericApply 8 []
      else if i = 2 then { isApply := true, hasSubstitutions := false, Callee := none,
                           canOptimize := true, operands := [0, 1] }
      else otherInst [0]
    isDefinition := fun _ => true
    shouldOptimize := fun _ => true }

/-- An engine that, asked to specialize call site `0`, reports `0` and the
instruction `2` dead without rewriting anything, and declines every other call
site. -/
def deadUserEngine (M : SILModule) (I : Inst) : EngineResult SILModule :=
  if I = 0 then { F := M, DeadApplies := [0, 2], NewFunctions := [] }
  else { F := M, DeadApplies := [], NewFunctions := [] }

/-- Two blocks.  Block 0, top to bottom: `%0 = apply %7<T>()`, an instruction
`1` that is no apply site, and `%2 = apply %7<T>()` whose `canOptimize` flag is
off.  Block 1: `%3 = apply %9<T>()` where `9` has no body, and
`%4 = apply %8<T>()`. -/
def twoBlocks : SILModule :=
  { blocks := [[0, 1, 2], [3, 4]]
    inst := fun i =>
      if i = 1 then otherInst [0]
      else if i = 2 then { genericApply 7 [] with canOptimize := false }
      else if i = 3 then genericApply 9 []
      else if i = 4 then genericApply 8 []
      else genericApply 7 []
    isDefinition := fun f => f != 9
    shouldOptimize := fun _ => true }

/-- One block with three candidates at positions 0, 2 and 3, and an
instruction that is no apply site at position 1. -/
def threeCalls : SILModule :=
  { blocks := [[0, 1, 2, 3]]
    inst := fun i => if i = 1 then otherInst [0] else genericApply 7 []
    isDefinition := fun _ => true
    shouldOptimize := fun _ => true }

/-- An engine that specializes every call site it is given and creates two
new functions for it, pushed in the order `100 + I`, `200 + I`. -/
def pairEngine (M : SILModule) (I : Inst) : EngineResult SILModule :=
  { F := M, DeadApplies := [I], NewFunctions := [100 + I, 200 + I] }

/-- Two blocks with one candidate each: `%0 = apply %7<T>()` in block 0 and
`%1 = apply %7<T>()` in block 1. -/
def oneCallPerBlock : SILModule :=
  { blocks := [[0], [1]]
    inst := fun _ => genericApply 7 []
    isDefinition := fun _ => true
    shouldOptimize := fun _ => true }

/-- Whether every `Applies.insert` call of the record comes before the first
`pop_back_val`: collection of all candidates ends before the attempts start. -/
def insertsPrecedePops : List Event → Bool
  | [] => true
  | Event.pop _ :: rest => (insertsOf rest).isEmpty
  | _ :: rest => insertsPrecedePops rest

theorem mem_setVector_insert (s : List Inst) (x y : Inst) :
    y ∈ SetVector.insert s x ↔ y ∈ s ∨ y = x := by
  unfold SetVector.insert
  split
  · constructor
    · intro h; exact Or.inl h
    · rintro (h | h)
      · exact h
      · subst h; assumption
  · simp

theorem scanInst_fst {σ : Type} (sil : SIL σ) (F : σ) (A : List Inst) (I : Inst) :
    (scanInst sil F A I).1 = if isCandidate sil F I then SetVector.insert A I else A := by
  unfold scanInst isCandidate
  cases h1 : sil.isApply F I <;> cases h2 : sil.hasSubstitutions F I <;>
    cases h3 : sil.getReferencedFunctionOrNull F I <;> simp
  rename_i c
  cases h4 : sil.isDefinition F c <;> simp

theorem scanInst_snd {σ : Type} (sil : SIL σ) (F : σ) (A : List Inst) (I : Inst) :
    (scanInst sil F A I).2 =
      Event.visit I ::
        (if sil.isApply F I && sil.hasSubstitutions F I then
          match sil.getReferencedFunctionOrNull F I with
          | none => []
          | some c => if sil.isDefinition F c then [Event.insert I] else [Event.remarkMissed I c]
         else []) := by
  unfold scanInst
  cases h1 : sil.isApply F I <;> cases h2 : sil.hasSubstitutions F I <;>
    cases h3 : sil.getReferencedFunctionOrNull F I <;> simp
  rename_i c
  cases h4 : sil.isDefinition F c <;> simp


theorem isCandidate_iff {σ : Type} (sil : SIL σ) (F : σ) (I : Inst) :
    isCandidate sil F I = true ↔
      sil.isApply F I = true ∧ sil.hasSubstitutions F I = true ∧
        ∃ Callee, sil.getReferencedFunctionOrNull F I = some Callee ∧
          sil.isDefinition F Callee = true := by
  unfold isCandidate
  cases h3 : sil.getReferencedFunctionOrNull F I <;> simp [and_assoc]

theorem scanBlock_fst_mem {σ : Type} (sil : SIL σ) (F : σ) (l : List Inst) :
    ∀ (A : List Inst) (x : Inst),
      x ∈ (scanBlock sil F l A).1 ↔ x ∈ A ∨ (x ∈ l ∧ isCandidate sil F x = true) := by
  induction l with
  | nil => intro A x; simp [scanBlock]
  | cons I rest ih =>
    intro A x
    simp only [scanBlock, ih, scanInst_fst, List.mem_cons]
    by_cases hc : isCandidate sil F I = true
    · simp only [hc, if_true, mem_setVector_insert]
      constructor
      · rintro ((h | h) | h)
        · exact Or.inl h
        · subst h; exact Or.inr ⟨Or.inl rfl, hc⟩
        · exact Or.inr ⟨Or.inr h.1, h.2⟩
      · rintro (h | ⟨h | h, h2⟩)
        · exact Or.inl (Or.inl h)
        · exact Or.inl (Or.inr h)
        · exact Or.inr ⟨h, h2⟩
    · simp only [hc]
      constructor
      · rintro (h | h)
        · exact Or.inl h
        · exact Or.inr ⟨Or.inr h.1, h.2⟩
      · rintro (h | ⟨h | h, h2⟩)
        · exact Or.inl h
        · subst h; exact absurd h2 hc
        · exact Or.inr ⟨h, h2⟩

theorem scanBlock_insert_mem {σ : Type} (sil : SIL σ) (F : σ) (l : List Inst) :
    ∀ (A : List Inst) (x : Inst),
      Event.insert x ∈ (scanBlock sil F l A).2 ↔ x ∈ l ∧ isCandidate sil F x = true := by
  induction l with
  | nil => intro A x; simp [scanBlock]
  | cons I rest ih =>
    intro A x
    simp only [scanBlock, List.mem_append, ih, scanInst_snd, List.mem_cons]
    have key : (Event.insert x = Event.visit I ∨
        Event.insert x ∈ (if (sil.isApply F I && sil.hasSubstitutions F I) = true then
          match sil.getReferencedFunctionOrNull F I with
          | none => []
          | some c => if sil.isDefinition F c = true then [Event.insert I]
                      else [Event.remarkMissed I c]
         else [])) ↔ (x = I ∧ isCandidate sil F x = true) := by
      constructor
      · rintro (h | h)
        · cases h
        · unfold isCandidate
          cases h1 : sil.isApply F I <;> cases h2 : sil.hasSubstitutions F I <;>
            cases h3 : sil.getReferencedFunctionOrNull F I <;> simp [h1, h2, h3] at h
          rename_i c
          cases h4 : sil.isDefinition F c <;> simp [h4] at h
          subst h
          simp [h1, h2, h3, h4]
      · rintro ⟨rfl, hc⟩
        right
        rw [isCandidate_iff] at hc
        obtain ⟨h1, h2, c, h3, h4⟩ := hc
        simp [h1, h2, h3, h4]
    rw [key]
    constructor
    · rintro (⟨h, h2⟩ | ⟨h, h2⟩)
      · exact ⟨Or.inl h, h2⟩
      · exact ⟨Or.inr h, h2⟩
    · rintro ⟨h | h, h2⟩
      · exact Or.inl ⟨h, h2⟩
      · exact Or.inr ⟨h, h2⟩

theorem scanBlock_remark_mem {σ : Type} (sil : SIL σ) (F : σ) (l : List Inst) :
    ∀ (A : List Inst) (x : Inst) (c : Fn),
      Event.remarkMissed x c ∈ (scanBlock sil F l A).2 ↔
        x ∈ l ∧ sil.isApply F x = true ∧ sil.hasSubstitutions F x = true ∧
          sil.getReferencedFunctionOrNull F x = some c ∧ sil.isDefinition F c = false := by
  induction l with
  | nil => intro A x c; simp [scanBlock]
  | cons I rest ih =>
    intro A x c
    simp only [scanBlock, List.mem_append, ih, scanInst_snd, List.mem_cons]
    have key : (Event.remarkMissed x c = Event.visit I ∨
        Event.remarkMissed x c ∈ (if (sil.isApply F I && sil.hasSubstitutions F I) = true then
          match sil.getReferencedFunctionOrNull F I with
          | none => []
          | some c => if sil.isDefinition F c = true then [Event.insert I]
                      else [Event.remarkMissed I c]
         else [])) ↔ (x = I ∧ sil.isApply F x = true ∧ sil.hasSubstitutions F x = true ∧
          sil.getReferencedFunctionOrNull F x = some c ∧ sil.isDefinition F c = false) := by
      constructor
      · rintro (h | h)
        · cases h
        · cases h1 : sil.isApply F I <;> cases h2 : sil.hasSubstitutions F I <;>
            cases h3 : sil.getReferencedFunctionOrNull F I <;> simp [h1, h2, h3] at h
          rename_i c2
          cases h4 : sil.isDefinition F c2 <;> simp [h4] at h
          obtain ⟨rfl, rfl⟩ := h
          simp [h1, h2, h3, h4]
      · rintro ⟨rfl, h1, h2, h3, h4⟩
        right
        simp [h1, h2, h3, h4]
    rw [key]
    constructor
    · rintro (⟨h, h2⟩ | ⟨h, h2⟩)
      · exact ⟨Or.inl h, h2⟩
      · exact ⟨Or.inr h, h2⟩
    · rintro ⟨h | h, h2⟩
      · exact Or.inl ⟨h, h2⟩
      · exact Or.inr ⟨h, h2⟩

/-- C2: the scan of a block calls `Applies.insert` on exactly the instructions
of the block that are apply sites with substitutions and a non-null referenced
callee that is a definition; the work set after the scan holds what it held
before and exactly these instructions. -/
theorem scan_inserts_exactly_candidates {σ : Type} (sil : SIL σ) (F : σ)
    (BB Applies : List Inst) (I : Inst) :
    (Event.insert I ∈ (scanBlock sil F BB.reverse Applies).2 ↔
      I ∈ BB ∧ sil.isApply F I = true ∧ sil.hasSubstitutions F I = true ∧
        ∃ Callee, sil.getReferencedFunctionOrNull F I = some Callee ∧
          sil.isDefinition F Callee = true) ∧
    (I ∈ (scanBlock sil F BB.reverse Applies).1 ↔
      I ∈ Applies ∨
        (I ∈ BB ∧ sil.isApply F I = true ∧ sil.hasSubstitutions F I = true ∧
          ∃ Callee, sil.getReferencedFunctionOrNull F I = some Callee ∧
            sil.isDefinition F Callee = true)) := by
  rw [scanBlock_insert_mem, scanBlock_fst_mem, isCandidate_iff, List.mem_reverse]
  exact ⟨Iff.rfl, Iff.rfl⟩

/-! ### The drain loop -/

theorem drainDead_Applies {σ : Type} (sil : SIL σ) (l : List Inst) :
    ∀ st : Driver σ, (drainDead sil l st).1.Applies = st.Applies.diff l := by
  induction l with
  | nil => intro st; simp [drainDead]
  | cons AI rest ih => intro st; simp [drainDead, ih, SetVector.remove]

theorem drainDead_events {σ : Type} (sil : SIL σ) (l : List Inst) :
    ∀ st : Driver σ,
      (drainDead sil l st).2 = l.flatMap (fun AI => [Event.remove AI, Event.delete AI]) := by
  induction l with
  | nil => intro st; simp [drainDead]
  | cons AI rest ih => intro st; simp [drainDead, ih]

theorem drainDead_Changed {σ : Type} (sil : SIL σ) (l : List Inst) :
    ∀ st : Driver σ, (drainDead sil l st).1.Changed = (st.Changed || !l.isEmpty) := by
  induction l with
  | nil => intro st; simp [drainDead]
  | cons AI rest ih => intro st; simp [drainDead, ih]

theorem drainDead_assertFailed {σ : Type} (sil : SIL σ) (l : List Inst) :
    ∀ st : Driver σ, (drainDead sil l st).1.assertFailed = st.assertFailed := by
  induction l with
  | nil => intro st; simp [drainDead]
  | cons AI rest ih => intro st; simp [drainDead, ih]

theorem mem_foldl_setVector_insert (l : List Inst) :
    ∀ (s : List Inst) (x : Inst), x ∈ l.foldl SetVector.insert s ↔ x ∈ s ∨ x ∈ l := by
  induction l with
  | nil => intro s x; simp
  | cons a rest ih =>
    intro s x
    simp only [List.foldl_cons, ih, mem_setVector_insert, List.mem_cons]
    tauto

theorem nodup_setVector_insert (s : List Inst) (x : Inst) (h : s.Nodup) :
    (SetVector.insert s x).Nodup := by
  unfold SetVector.insert
  split
  · exact h
  · rename_i hx
    rw [List.nodup_append]
    refine ⟨h, List.nodup_singleton x, ?_⟩
    intro a ha hb
    simp at hb
    subst hb
    exact hx ha

theorem nodup_foldl_setVector_insert (l : List Inst) :
    ∀ s : List Inst, s.Nodup → (l.foldl SetVector.insert s).Nodup := by
  induction l with
  | nil => intro s h; simpa using h
  | cons a rest ih =>
    intro s h
    simp only [List.foldl_cons]
    exact ih _ (nodup_setVector_insert s a h)

/-! ### One iteration of the attempt loop -/

/-- The four tests of lines 118-125 that lead to the engine call. -/
theorem attemptBody_attempt {σ : Type} (sil : SIL σ) (st : Driver σ) (I : Inst) (Callee : Fn)
    (h1 : sil.isApply st.F I = true)
    (h2 : sil.getReferencedFunctionOrNull st.F I = some Callee)
    (h3 : sil.canOptimize st.F I = true)
    (h4 : sil.shouldOptimize st.F Callee = true) :
    attemptBody sil st I =
      ((drainDead sil ((sil.trySpecializeApplyOfGeneric st.F I).DeadApplies.foldl
          SetVector.insert []).reverse
          { st with F := (sil.trySpecializeApplyOfGeneric st.F I).F }).1,
       [Event.trySpecialize I
          ((sil.trySpecializeApplyOfGeneric st.F I).DeadApplies.foldl SetVector.insert [])
          (sil.trySpecializeApplyOfGeneric st.F I).NewFunctions]
        ++ (drainDead sil ((sil.trySpecializeApplyOfGeneric st.F I).DeadApplies.foldl
          SetVector.insert []).reverse
          { st with F := (sil.trySpecializeApplyOfGeneric st.F I).F }).2
        ++ (sil.trySpecializeApplyOfGeneric st.F I).NewFunctions.reverse.map
            (fun NewF => Event.enqueue NewF Callee)) := by
  unfold attemptBody
  simp [h1, h2, h3, h4]

theorem attemptBody_skip {σ : Type} (sil : SIL σ) (st : Driver σ) (I : Inst) (Callee : Fn)
    (h1 : sil.isApply st.F I = true)
    (h2 : sil.getReferencedFunctionOrNull st.F I = some Callee)
    (h3 : sil.canOptimize st.F I = false ∨ sil.shouldOptimize st.F Callee = false) :
    attemptBody sil st I = (st, []) := by
  unfold attemptBody
  rcases h3 with h3 | h3 <;> simp [h1, h2, h3]

theorem attemptBody_assert {σ : Type} (sil : SIL σ) (st : Driver σ) (I : Inst)
    (h : sil.isApply st.F I = false ∨ sil.getReferencedFunctionOrNull st.F I = none) :
    attemptBody sil st I = ({ st with assertFailed := true }, []) := by
  unfold attemptBody
  rcases h with h | h
  · simp [h]
  · cases h1 : sil.isApply st.F I <;> simp [h]

/-- The cases of one iteration: an assertion fails, the candidate is skipped,
or the engine is called. -/
theorem attemptBody_cases {σ : Type} (sil : SIL σ) (st : Driver σ) (I : Inst) :
    (attemptBody sil st I = ({ st with assertFailed := true }, []) ∧
      (sil.isApply st.F I = false ∨ sil.getReferencedFunctionOrNull st.F I = none)) ∨
    (attemptBody sil st I = (st, []) ∧ sil.isApply st.F I = true ∧
      ∃ Callee, sil.getReferencedFunctionOrNull st.F I = some Callee ∧
        (sil.canOptimize st.F I = false ∨ sil.shouldOptimize st.F Callee = false)) ∨
    (sil.isApply st.F I = true ∧
      ∃ Callee, sil.getReferencedFunctionOrNull st.F I = some Callee ∧
        sil.canOptimize st.F I = true ∧ sil.shouldOptimize st.F Callee = true) := by
  cases h1 : sil.isApply st.F I
  · exact Or.inl ⟨attemptBody_assert sil st I (Or.inl h1), Or.inl rfl⟩
  · cases h2 : sil.getReferencedFunctionOrNull st.F I with
    | none => exact Or.inl ⟨attemptBody_assert sil st I (Or.inr h2), Or.inr rfl⟩
    | some c =>
      cases h3 : sil.canOptimize st.F I
      · exact Or.inr (Or.inl ⟨attemptBody_skip sil st I c h1 h2 (Or.inl h3), rfl, c, rfl, Or.inl rfl⟩)
      · cases h4 : sil.shouldOptimize st.F c
        · exact Or.inr (Or.inl ⟨attemptBody_skip sil st I c h1 h2 (Or.inr h4), rfl, c, rfl,
            Or.inr h4⟩)
        · exact Or.inr (Or.inr ⟨rfl, c, rfl, rfl, h4⟩)

theorem attemptBody_attempt_events {σ : Type} (sil : SIL σ) (st : Driver σ) (I : Inst)
    (Callee : Fn)
    (h1 : sil.isApply st.F I = true)
    (h2 : sil.getReferencedFunctionOrNull st.F I = some Callee)
    (h3 : sil.canOptimize st.F I = true)
    (h4 : sil.shouldOptimize st.F Callee = true) :
    (attemptBody sil st I).2 =
      Event.trySpecialize I (deadAppliesOf sil st.F I) (newFunctionsOf sil st.F I) ::
        (drainEvents (deadAppliesOf sil st.F I)
          ++ enqueueEvents (newFunctionsOf sil st.F I) Callee) := by
  rw [attemptBody_attempt sil st I Callee h1 h2 h3 h4]
  simp [drainDead_events, deadAppliesOf, newFunctionsOf, drainEvents, enqueueEvents]

theorem attemptBody_attempt_state {σ : Type} (sil : SIL σ) (st : Driver σ) (I : Inst)
    (Callee : Fn)
    (h1 : sil.isApply st.F I = true)
    (h2 : sil.getReferencedFunctionOrNull st.F I = some Callee)
    (h3 : sil.canOptimize st.F I = true)
    (h4 : sil.shouldOptimize st.F Callee = true) :
    (attemptBody sil st I).1.Applies = st.Applies.diff (deadAppliesOf sil st.F I).reverse ∧
    (attemptBody sil st I).1.Changed = (st.Changed || !(deadAppliesOf sil st.F I).isEmpty) ∧
    (attemptBody sil st I).1.assertFailed = st.assertFailed := by
  rw [attemptBody_attempt sil st I Callee h1 h2 h3 h4]
  have hrev : ∀ l : List Inst, l.reverse.isEmpty = l.isEmpty := by
    intro l; cases l <;> simp
  simp [drainDead_Applies, drainDead_Changed, drainDead_assertFailed, deadAppliesOf, hrev]

/-! ### Projections of the record -/

theorem popsOf_append (a b : List Event) : popsOf (a ++ b) = popsOf a ++ popsOf b := by
  simp [popsOf]

theorem visitsOf_append (a b : List Event) : visitsOf (a ++ b) = visitsOf a ++ visitsOf b := by
  simp [visitsOf]

theorem insertsOf_append (a b : List Event) :
    insertsOf (a ++ b) = insertsOf a ++ insertsOf b := by
  simp [insertsOf]

theorem attemptsOf_append (a b : List Event) :
    attemptsOf (a ++ b) = attemptsOf a ++ attemptsOf b := by
  simp [attemptsOf]

theorem enqueuesOf_append (a b : List Event) :
    enqueuesOf (a ++ b) = enqueuesOf a ++ enqueuesOf b := by
  simp [enqueuesOf]

theorem someDead_append (a b : List Event) : someDead (a ++ b) = (someDead a || someDead b) := by
  simp [someDead]

theorem drainEvents_proj (D : List Inst) :
    popsOf (drainEvents D) = [] ∧ visitsOf (drainEvents D) = [] ∧
    insertsOf (drainEvents D) = [] ∧ attemptsOf (drainEvents D) = [] ∧
    enqueuesOf (drainEvents D) = [] ∧ someDead (drainEvents D) = false := by
  unfold drainEvents
  induction D.reverse with
  | nil => simp [popsOf, visitsOf, insertsOf, attemptsOf, enqueuesOf, someDead]
  | cons a rest ih =>
    obtain ⟨i1, i2, i3, i4, i5, i6⟩ := ih
    simp only [List.flatMap_cons, popsOf_append, visitsOf_append, insertsOf_append,
      attemptsOf_append, enqueuesOf_append, someDead_append, i1, i2, i3, i4, i5, i6]
    simp [popsOf, visitsOf, insertsOf, attemptsOf, enqueuesOf, someDead]

theorem enqueueEvents_proj (N : List Fn) (c : Fn) :
    popsOf (enqueueEvents N c) = [] ∧ visitsOf (enqueueEvents N c) = [] ∧
    insertsOf (enqueueEvents N c) = [] ∧ attemptsOf (enqueueEvents N c) = [] ∧
    enqueuesOf (enqueueEvents N c) = N.reverse.map (fun NewF => (NewF, c)) ∧
    someDead (enqueueEvents N c) = false := by
  unfold enqueueEvents
  induction N.reverse with
  | nil => simp [popsOf, visitsOf, insertsOf, attemptsOf, enqueuesOf, someDead]
  | cons a rest ih =>
    obtain ⟨i1, i2, i3, i4, i5, i6⟩ := ih
    simp only [List.map_cons]
    refine ⟨?_, ?_, ?_, ?_, ?_, ?_⟩
    · simp [popsOf]
    · simp [visitsOf]
    · simp [insertsOf]
    · simp [attemptsOf]
    · simpa [enqueuesOf] using i5
    · simp [someDead]

/-- What one iteration of the attempt loop records, projection by projection. -/
theorem attemptBody_proj {σ : Type} (sil : SIL σ) (st : Driver σ) (I : Inst) :
    popsOf (attemptBody sil st I).2 = [] ∧ visitsOf (attemptBody sil st I).2 = [] ∧
    insertsOf (attemptBody sil st I).2 = [] ∧
    (attemptsOf (attemptBody sil st I).2 = [] ∨ attemptsOf (attemptBody sil st I).2 = [I]) := by
  rcases attemptBody_cases sil st I with ⟨h, _⟩ | ⟨h, _⟩ | ⟨h1, c, h2, h3, h4⟩
  · rw [h]; simp [popsOf, visitsOf, insertsOf, attemptsOf]
  · rw [h]; simp [popsOf, visitsOf, insertsOf, attemptsOf]
  · rw [attemptBody_attempt_events sil st I c h1 h2 h3 h4]
    have hd := drainEvents_proj (deadAppliesOf sil st.F I)
    have he := enqueueEvents_proj (newFunctionsOf sil st.F I) c
    refine ⟨?_, ?_, ?_, Or.inr ?_⟩
    · have : popsOf [Event.trySpecialize I (deadAppliesOf sil st.F I)
          (newFunctionsOf sil st.F I)] = [] := by simp [popsOf]
      rw [← List.singleton_append, popsOf_append, popsOf_append, this, hd.1, he.1]; rfl
    · have : visitsOf [Event.trySpecialize I (deadAppliesOf sil st.F I)
          (newFunctionsOf sil st.F I)] = [] := by simp [visitsOf]
      rw [← List.singleton_append, visitsOf_append, visitsOf_append, this, hd.2.1, he.2.1]; rfl
    · have : insertsOf [Event.trySpecialize I (deadAppliesOf sil st.F I)
          (newFunctionsOf sil st.F I)] = [] := by simp [insertsOf]
      rw [← List.singleton_append, insertsOf_append, insertsOf_append, this, hd.2.2.1,
        he.2.2.1]; rfl
    · have : attemptsOf [Event.trySpecialize I (deadAppliesOf sil st.F I)
          (newFunctionsOf sil st.F I)] = [I] := by simp [attemptsOf]
      rw [← List.singleton_append, attemptsOf_append, attemptsOf_append, this, hd.2.2.2.1,
        he.2.2.2.1]; rfl

theorem attemptBody_Applies_sublist {σ : Type} (sil : SIL σ) (st : Driver σ) (I : Inst) :
    (attemptBody sil st I).1.Applies.Sublist st.Applies := by
  rcases attemptBody_cases sil st I with ⟨h, _⟩ | ⟨h, _⟩ | ⟨h1, c, h2, h3, h4⟩
  · rw [h]
  · rw [h]
  · rw [(attemptBody_attempt_state sil st I c h1 h2 h3 h4).1]
    exact List.diff_sublist _ _

/-! ### C6: the missing-definition remark -/

/-- C6, as stated, fails: `plainCallOfDeclaration` holds one call site whose
callee is statically known and has no visible definition, and the run emits no
remark for it (the call has no substitutions, so line 92 skips it before the
callee is looked at). -/
theorem no_remark_without_substitutions :
    (moduleSIL declineEngine).isApply plainCallOfDeclaration 0 = true ∧
    (moduleSIL declineEngine).getReferencedFunctionOrNull plainCallOfDeclaration 0 = some 9 ∧
    (moduleSIL declineEngine).isDefinition plainCallOfDeclaration 9 = false ∧
    (specializeAppliesInFunction (moduleSIL declineEngine) plainCallOfDeclaration).2
      = [Event.visit 0] := by
  decide

/-- C6, amended: the scan of a block emits the "NoDef" remark for exactly the
instructions of the block that are call sites with at least one substitution
and a statically known callee that is not a definition, naming that callee;
and no instruction is both reported and inserted into the work set. -/
theorem scan_remarks_exactly_missing_definitions {σ : Type} (sil : SIL σ) (F : σ)
    (BB Applies : List Inst) (I : Inst) (Callee : Fn) :
    (Event.remarkMissed I Callee ∈ (scanBlock sil F BB.reverse Applies).2 ↔
      I ∈ BB ∧ sil.isApply F I = true ∧ sil.hasSubstitutions F I = true ∧
        sil.getReferencedFunctionOrNull F I = some Callee ∧
        sil.isDefinition F Callee = false) ∧
    ¬ (Event.remarkMissed I Callee ∈ (scanBlock sil F BB.reverse Applies).2 ∧
        Event.insert I ∈ (scanBlock sil F BB.reverse Applies).2) := by
  rw [scanBlock_remark_mem, scanBlock_insert_mem, isCandidate_iff, List.mem_reverse]
  refine ⟨Iff.rfl, ?_⟩
  rintro ⟨⟨_, _, _, hc, hd⟩, _, _, _, c, hc2, hd2⟩
  rw [hc] at hc2
  cases hc2
  rw [hd] at hd2
  cases hd2

/-! ### C7: the re-check at pop time -/

/-- C7: for a popped candidate `I` (an apply site with callee `Callee`, as the
two assertions require), the iteration calls the engine on `I` if and only if
`canOptimize` holds for `I` and `shouldOptimize` holds for `Callee`, both read
at pop time; otherwise the iteration changes nothing and makes no call: the
driver's variables and the module are as before, `Changed` included. -/
theorem engine_called_iff_attemptable {σ : Type} (sil : SIL σ) (st : Driver σ) (I : Inst)
    (Callee : Fn)
    (h1 : sil.isApply st.F I = true)
    (h2 : sil.getReferencedFunctionOrNull st.F I = some Callee) :
    ((∃ D N, Event.trySpecialize I D N ∈ (attemptBody sil st I).2) ↔
      (sil.canOptimize st.F I = true ∧ sil.shouldOptimize st.F Callee = true)) ∧
    (¬ (sil.canOptimize st.F I = true ∧ sil.shouldOptimize st.F Callee = true) →
      attemptBody sil st I = (st, [])) := by
  by_cases h : sil.canOptimize st.F I = true ∧ sil.shouldOptimize st.F Callee = true
  · refine ⟨⟨fun _ => h, fun _ => ?_⟩, fun hn => absurd h hn⟩
    rw [attemptBody_attempt_events sil st I Callee h1 h2 h.1 h.2]
    exact ⟨_, _, List.mem_cons_self _ _⟩
  · have hskip : attemptBody sil st I = (st, []) := by
      apply attemptBody_skip sil st I Callee h1 h2
      by_cases h3 : sil.canOptimize st.F I = true
      · right
        cases h4 : sil.shouldOptimize st.F Callee
        · rfl
        · exact absurd ⟨h3, h4⟩ h
      · left
        simpa using h3
    refine ⟨⟨?_, fun hh => absurd hh h⟩, fun _ => hskip⟩
    rw [hskip]
    rintro ⟨D, N, hmem⟩
    cases hmem

/-- C7 at an explicit input: in `twoBlocks`, instruction `2` is a call site with
callee `7` whose `canOptimize` flag is off; the iteration that pops it changes
nothing. -/
theorem engine_called_iff_attemptable_witness :
    attemptBody (moduleSIL cloneEngine) (entryState twoBlocks) 2
      = (entryState twoBlocks, []) :=
  (engine_called_iff_attemptable (moduleSIL cloneEngine) (entryState twoBlocks) 2 7
    (by decide) (by decide)).2 (by decide)

/-! ### C5: rescheduling the new functions -/

/-- C5: an iteration that calls the engine on `I`, whose callee read at pop
time is `Callee`, records the engine call, then the drain of the dead set, then
one `addFunctionToPassManagerWorklist(NewF, Callee)` per element of
`NewFunctions`, last element first; these are all the enqueue calls of the
iteration, so there are exactly as many as `NewFunctions` has entries and none
when it is empty. -/
theorem reschedule_in_reverse_with_callee {σ : Type} (sil : SIL σ) (st : Driver σ)
    (I : Inst) (Callee : Fn)
    (h1 : sil.isApply st.F I = true)
    (h2 : sil.getReferencedFunctionOrNull st.F I = some Callee)
    (h3 : sil.canOptimize st.F I = true)
    (h4 : sil.shouldOptimize st.F Callee = true) :
    (attemptBody sil st I).2 =
      Event.trySpecialize I (deadAppliesOf sil st.F I)
          (sil.trySpecializeApplyOfGeneric st.F I).NewFunctions ::
        (drainEvents (deadAppliesOf sil st.F I) ++
          (sil.trySpecializeApplyOfGeneric st.F I).NewFunctions.reverse.map
            (fun NewF => Event.enqueue NewF Callee)) ∧
    enqueuesOf (attemptBody sil st I).2 =
      (sil.trySpecializeApplyOfGeneric st.F I).NewFunctions.reverse.map
        (fun NewF => (NewF, Callee)) ∧
    (enqueuesOf (attemptBody sil st I).2).length =
      (sil.trySpecializeApplyOfGeneric st.F I).NewFunctions.length := by
  have hev := attemptBody_attempt_events sil st I Callee h1 h2 h3 h4
  have hd := drainEvents_proj (deadAppliesOf sil st.F I)
  have he := enqueueEvents_proj (newFunctionsOf sil st.F I) Callee
  have henq : enqueuesOf (attemptBody sil st I).2 =
      (sil.trySpecializeApplyOfGeneric st.F I).NewFunctions.reverse.map
        (fun NewF => (NewF, Callee)) := by
    rw [hev, ← List.singleton_append, enqueuesOf_append, enqueuesOf_append, hd.2.2.2.2.1,
      he.2.2.2.2.1]
    simp [enqueuesOf, newFunctionsOf]
  refine ⟨?_, henq, ?_⟩
  · rw [hev]; rfl
  · rw [henq]; simp

/-- C5 at an explicit input: an engine returning `NewFunctions = [100, 200]` for
call site `0` of `twoBlocks`, whose callee is `7`; the driver enqueues `200`,
then `100`. -/
theorem reschedule_in_reverse_with_callee_witness :
    enqueuesOf (attemptBody (moduleSIL pairEngine) (entryState twoBlocks) 0).2
      = [(200, 7), (100, 7)] :=
  (reschedule_in_reverse_with_callee (moduleSIL pairEngine) (entryState twoBlocks) 0 7
    (by decide) (by decide) (by decide) (by decide)).2.1

/-! ### C4: the work set after the drain -/

/-- The anchoring hypothesis cannot be dropped.  `deadUserEngine` is outside
section 4.3: asked to specialize `0` of `closureUser` it reports `0` and its
user `2` dead without rewriting either.  Deleting `2` then leaves its operand
producer `1` without uses, the cascade deletes `1`, and `1` is still in the
work set. -/
theorem unanchored_candidate_is_cascaded :
    (attemptBody (moduleSIL deadUserEngine)
      { F := closureUser, Applies := [1], Changed := false, assertFailed := false } 0).1.Applies
      = [1] ∧
    closureUser.insts = [0, 1, 2, 3] ∧
    (attemptBody (moduleSIL deadUserEngine)
      { F := closureUser, Applies := [1], Changed := false, assertFailed := false } 0).1.F.insts
      = [3] := by
  decide

/-! ### The attempt loop -/

theorem attemptLoop_of_nil {σ : Type} (sil : SIL σ) (fuel : Nat) (st : Driver σ)
    (h : st.Applies = []) : attemptLoop sil fuel st = (st, []) := by
  cases fuel with
  | zero => rfl
  | succ n => simp [attemptLoop, h]

theorem attemptLoop_of_concat {σ : Type} (sil : SIL σ) (fuel : Nat) (st : Driver σ)
    (ys : List Inst) (I : Inst) (h : st.Applies = ys ++ [I]) :
    attemptLoop sil (fuel + 1) st =
      if (attemptBody sil { st with Applies := ys } I).1.assertFailed = true then
        ((attemptBody sil { st with Applies := ys } I).1,
          Event.pop I :: (attemptBody sil { st with Applies := ys } I).2)
      else
        ((attemptLoop sil fuel (attemptBody sil { st with Applies := ys } I).1).1,
          Event.pop I :: (attemptBody sil { st with Applies := ys } I).2 ++
            (attemptLoop sil fuel (attemptBody sil { st with Applies := ys } I).1).2) := by
  simp [attemptLoop, h]

/-- Induction along the iterations of the attempt loop. -/
theorem attemptLoop_induction {σ : Type} (sil : SIL σ)
    (P : Driver σ → Driver σ × List Event → Prop)
    (hstop : ∀ st, P st (st, []))
    (hfail : ∀ st ys I, st.Applies = ys ++ [I] →
      (attemptBody sil { st with Applies := ys } I).1.assertFailed = true →
      P st ((attemptBody sil { st with Applies := ys } I).1,
        Event.pop I :: (attemptBody sil { st with Applies := ys } I).2))
    (hstep : ∀ st ys I res, st.Applies = ys ++ [I] →
      (attemptBody sil { st with Applies := ys } I).1.assertFailed = false →
      P (attemptBody sil { st with Applies := ys } I).1 res →
      P st (res.1, Event.pop I :: (attemptBody sil { st with Applies := ys } I).2 ++ res.2)) :
    ∀ (fuel : Nat) (st : Driver σ), P st (attemptLoop sil fuel st) := by
  intro fuel
  induction fuel with
  | zero => intro st; exact hstop st
  | succ n ih =>
    intro st
    rcases List.eq_nil_or_concat st.Applies with h | ⟨ys, I, h⟩
    · rw [attemptLoop_of_nil sil _ st h]; exact hstop st
    · rw [List.concat_eq_append] at h
      rw [attemptLoop_of_concat sil n st ys I h]
      split
      · rename_i hf
        exact hfail st ys I h hf
      · rename_i hf
        exact hstep st ys I _ h (by simpa using hf) (ih _)

theorem attemptLoop_pops_sublist {σ : Type} (sil : SIL σ) (fuel : Nat) (st : Driver σ) :
    (popsOf (attemptLoop sil fuel st).2).Sublist st.Applies.reverse := by
  refine attemptLoop_induction sil
    (fun st res => (popsOf res.2).Sublist st.Applies.reverse) ?_ ?_ ?_ fuel st
  · intro st; simp [popsOf]
  · intro st ys I h _
    have hp := (attemptBody_proj sil { st with Applies := ys } I).1
    show (popsOf (Event.pop I :: _)).Sublist _
    rw [← List.singleton_append, popsOf_append, hp, h]
    simp [popsOf]
  · intro st ys I res h _ ih
    have hp := (attemptBody_proj sil { st with Applies := ys } I).1
    have hs := attemptBody_Applies_sublist sil { st with Applies := ys } I
    show (popsOf (Event.pop I :: _ ++ _)).Sublist _
    rw [← List.singleton_append, List.append_assoc, popsOf_append, popsOf_append, hp, h]
    simp only [popsOf, List.filterMap_cons, List.filterMap_nil, List.nil_append,
      List.reverse_append, List.reverse_cons, List.reverse_nil, List.singleton_append]
    exact List.Sublist.cons₂ _ (ih.trans hs.reverse)

theorem attemptLoop_Applies_sublist {σ : Type} (sil : SIL σ) (fuel : Nat) (st : Driver σ) :
    (attemptLoop sil fuel st).1.Applies.Sublist st.Applies := by
  refine attemptLoop_induction sil
    (fun st res => res.1.Applies.Sublist st.Applies) ?_ ?_ ?_ fuel st
  · intro st; exact List.Sublist.refl _
  · intro st ys I h _
    have hs := attemptBody_Applies_sublist sil { st with Applies := ys } I
    show (attemptBody sil { st with Applies := ys } I).1.Applies.Sublist st.Applies
    rw [h]
    exact hs.trans (List.sublist_append_left ys [I])
  · intro st ys I res h _ ih
    have hs := attemptBody_Applies_sublist sil { st with Applies := ys } I
    show res.1.Applies.Sublist st.Applies
    rw [h]
    exact (ih.trans hs).trans (List.sublist_append_left ys [I])

theorem attemptLoop_no_scan {σ : Type} (sil : SIL σ) (fuel : Nat) (st : Driver σ) :
    visitsOf (attemptLoop sil fuel st).2 = [] ∧ insertsOf (attemptLoop sil fuel st).2 = [] := by
  refine attemptLoop_induction sil
    (fun _ res => visitsOf res.2 = [] ∧ insertsOf res.2 = []) ?_ ?_ ?_ fuel st
  · intro st; simp [visitsOf, insertsOf]
  · intro st ys I _ _
    have hp := attemptBody_proj sil { st with Applies := ys } I
    constructor
    · show visitsOf (Event.pop I :: _) = []
      rw [← List.singleton_append, visitsOf_append, hp.2.1]; simp [visitsOf]
    · show insertsOf (Event.pop I :: _) = []
      rw [← List.singleton_append, insertsOf_append, hp.2.2.1]; simp [insertsOf]
  · intro st ys I res _ _ ih
    have hp := attemptBody_proj sil { st with Applies := ys } I
    constructor
    · show visitsOf (Event.pop I :: _ ++ _) = []
      rw [← List.singleton_append, List.append_assoc, visitsOf_append, visitsOf_append, hp.2.1,
        ih.1]
      simp [visitsOf]
    · show insertsOf (Event.pop I :: _ ++ _) = []
      rw [← List.singleton_append, List.append_assoc, insertsOf_append, insertsOf_append,
        hp.2.2.1, ih.2]
      simp [insertsOf]

theorem attemptLoop_attempts_sublist {σ : Type} (sil : SIL σ) (fuel : Nat) (st : Driver σ) :
    (attemptsOf (attemptLoop sil fuel st).2).Sublist (popsOf (attemptLoop sil fuel st).2) := by
  refine attemptLoop_induction sil
    (fun _ res => (attemptsOf res.2).Sublist (popsOf res.2)) ?_ ?_ ?_ fuel st
  · intro st; simp [attemptsOf, popsOf]
  · intro st ys I _ _
    have hp := attemptBody_proj sil { st with Applies := ys } I
    show (attemptsOf (Event.pop I :: _)).Sublist (popsOf (Event.pop I :: _))
    rw [← List.singleton_append, attemptsOf_append, popsOf_append, hp.1]
    rcases hp.2.2.2 with ha | ha <;> rw [ha] <;> simp [attemptsOf, popsOf]
  · intro st ys I res _ _ ih
    have hp := attemptBody_proj sil { st with Applies := ys } I
    show (attemptsOf (Event.pop I :: _ ++ _)).Sublist (popsOf (Event.pop I :: _ ++ _))
    rw [← List.singleton_append, List.append_assoc, attemptsOf_append, attemptsOf_append,
      popsOf_append, popsOf_append, hp.1]
    rcases hp.2.2.2 with ha | ha <;> rw [ha]
    · simpa [attemptsOf, popsOf] using ih.trans (List.sublist_cons_self I _)
    · simpa [attemptsOf, popsOf] using ih

/-- The bound passed by `processBlock` is enough: unless an assertion fails, the
loop ends because the work set is empty. -/
theorem attemptLoop_drains {σ : Type} (sil : SIL σ) (fuel : Nat) :
    ∀ st : Driver σ, st.Applies.length ≤ fuel →
      (attemptLoop sil fuel st).1.assertFailed = false →
      (attemptLoop sil fuel st).1.Applies = [] := by
  induction fuel with
  | zero =>
    intro st hlen _
    simpa [attemptLoop] using hlen
  | succ n ih =>
    intro st hlen hok
    rcases List.eq_nil_or_concat st.Applies with h | ⟨ys, I, h⟩
    · rw [attemptLoop_of_nil sil _ st h]; exact h
    · rw [List.concat_eq_append] at h
      rw [attemptLoop_of_concat sil n st ys I h] at hok ⊢
      have hs := attemptBody_Applies_sublist sil { st with Applies := ys } I
      split at hok
      · rename_i hf
        rw [hf] at hok
        cases hok
      · rename_i hf
        rw [if_neg hf]
        apply ih _ _ hok
        have h1 := hs.length_le
        rw [h] at hlen
        simp at hlen h1
        omega

/-! ### What the scan records and adds -/

theorem scanInst_proj {σ : Type} (sil : SIL σ) (F : σ) (A : List Inst) (I : Inst) :
    visitsOf (scanInst sil F A I).2 = [I] ∧
    insertsOf (scanInst sil F A I).2 = (if isCandidate sil F I then [I] else []) ∧
    popsOf (scanInst sil F A I).2 = [] ∧ attemptsOf (scanInst sil F A I).2 = [] ∧
    enqueuesOf (scanInst sil F A I).2 = [] ∧ someDead (scanInst sil F A I).2 = false := by
  rw [scanInst_snd]
  unfold isCandidate
  cases h1 : sil.isApply F I <;> cases h2 : sil.hasSubstitutions F I <;>
    cases h3 : sil.getReferencedFunctionOrNull F I <;>
    simp [visitsOf, insertsOf, popsOf, attemptsOf, enqueuesOf, someDead]
  rename_i c
  cases h4 : sil.isDefinition F c <;>
    simp [visitsOf, insertsOf, popsOf, attemptsOf, enqueuesOf, someDead]

theorem scanBlock_proj {σ : Type} (sil : SIL σ) (F : σ) (l : List Inst) :
    ∀ A : List Inst,
      visitsOf (scanBlock sil F l A).2 = l ∧
      insertsOf (scanBlock sil F l A).2 = l.filter (isCandidate sil F) ∧
      popsOf (scanBlock sil F l A).2 = [] ∧ attemptsOf (scanBlock sil F l A).2 = [] ∧
      enqueuesOf (scanBlock sil F l A).2 = [] ∧ someDead (scanBlock sil F l A).2 = false := by
  induction l with
  | nil => intro A; simp [scanBlock, visitsOf, insertsOf, popsOf, attemptsOf, enqueuesOf, someDead]
  | cons I rest ih =>
    intro A
    obtain ⟨i1, i2, i3, i4, i5, i6⟩ := ih (scanInst sil F A I).1
    obtain ⟨j1, j2, j3, j4, j5, j6⟩ := scanInst_proj sil F A I
    simp only [scanBlock, visitsOf_append, insertsOf_append, popsOf_append, attemptsOf_append,
      enqueuesOf_append, someDead_append, i1, i2, i3, i4, i5, i6, j1, j2, j3, j4, j5, j6]
    refine ⟨rfl, ?_, rfl, rfl, rfl, rfl⟩
    by_cases hc : isCandidate sil F I = true
    · simp [hc]
    · simp [hc]

/-- The scan appends to the work set, and what it appends is taken in order from
the candidates it meets. -/
theorem scanBlock_appends {σ : Type} (sil : SIL σ) (F : σ) (l : List Inst) :
    ∀ A : List Inst, ∃ added : List Inst,
      (scanBlock sil F l A).1 = A ++ added ∧ added.Sublist (l.filter (isCandidate sil F)) := by
  induction l with
  | nil => intro A; exact ⟨[], by simp [scanBlock], List.Sublist.refl _⟩
  | cons I rest ih =>
    intro A
    obtain ⟨added, h1, h2⟩ := ih (scanInst sil F A I).1
    simp only [scanBlock]
    rw [h1, scanInst_fst]
    by_cases hc : isCandidate sil F I = true
    · simp only [hc, if_true, List.filter_cons_of_pos]
      unfold SetVector.insert
      split
      · exact ⟨added, rfl, h2.trans (List.sublist_cons_self I _)⟩
      · exact ⟨I :: added, by simp, List.Sublist.cons₂ I h2⟩
    · simp only [hc]
      refine ⟨added, by simp, ?_⟩
      rw [List.filter_cons_of_neg hc]
      exact h2

/-- A relation between the driver's variables before and after a stretch of the
run, with the calls recorded in between, holds of every run if it holds of no
step at all, of one scan and of one iteration of the attempt loop, and
composes. -/
theorem run_induction {σ : Type} (sil : SIL σ)
    (R : Driver σ → Driver σ × List Event → Prop)
    (hrefl : ∀ st, R st (st, []))
    (htrans : ∀ st r1 r2, R st r1 → R r1.1 r2 → R st (r2.1, r1.2 ++ r2.2))
    (hscan : ∀ (st : Driver σ) (l : List Inst),
      R st ({ st with Applies := (scanBlock sil st.F l st.Applies).1 },
        (scanBlock sil st.F l st.Applies).2))
    (hiter : ∀ (st : Driver σ) (ys : List Inst) (I : Inst), st.Applies = ys ++ [I] →
      R st ((attemptBody sil { st with Applies := ys } I).1,
        Event.pop I :: (attemptBody sil { st with Applies := ys } I).2)) :
    (∀ fuel st, R st (attemptLoop sil fuel st)) ∧
    (∀ st k, R st (processBlock sil st k)) ∧
    (∀ ks st, R st (blockLoop sil ks st)) ∧
    (∀ F, R (entryState F) (specializeAppliesInFunction sil F)) := by
  have hloop : ∀ fuel st, R st (attemptLoop sil fuel st) := by
    refine attemptLoop_induction sil R hrefl ?_ ?_
    · intro st ys I h _
      exact hiter st ys I h
    · intro st ys I res h _ ih
      have h2 := htrans st _ _ (hiter st ys I h) ih
      simpa [List.append_assoc] using h2
  have hblock : ∀ st k, R st (processBlock sil st k) := by
    intro st k
    unfold processBlock
    split
    · exact hrefl st
    · exact htrans st _ _ (hscan st _) (hloop _ _)
  have hblocks : ∀ ks st, R st (blockLoop sil ks st) := by
    intro ks
    induction ks with
    | nil => intro st; exact hrefl st
    | cons k ks ih =>
      intro st
      exact htrans st _ _ (hblock st k) (ih _)
  exact ⟨hloop, hblock, hblocks, fun F => hblocks _ _⟩

/-! ### C3: the returned flag -/

theorem someDeleted_append (a b : List Event) :
    someDeleted (a ++ b) = (someDeleted a || someDeleted b) := by
  simp [someDeleted]

theorem someDead_iff (log : List Event) :
    someDead log = true ↔ ∃ I D N, Event.trySpecialize I D N ∈ log ∧ D ≠ [] := by
  unfold someDead
  rw [List.any_eq_true]
  constructor
  · rintro ⟨e, he, h⟩
    cases e <;> simp at h
    rename_i I D N
    exact ⟨I, D, N, he, h⟩
  · rintro ⟨I, D, N, he, h⟩
    refine ⟨_, he, ?_⟩
    simpa using h

theorem someDeleted_iff (log : List Event) :
    someDeleted log = true ↔ ∃ AI, Event.delete AI ∈ log := by
  unfold someDeleted
  rw [List.any_eq_true]
  constructor
  · rintro ⟨e, he, h⟩
    cases e <;> simp at h
    rename_i AI
    exact ⟨AI, he⟩
  · rintro ⟨AI, he⟩
    exact ⟨_, he, rfl⟩

theorem someDeleted_drainEvents (D : List Inst) : someDeleted (drainEvents D) = !D.isEmpty := by
  cases hD : D.reverse with
  | nil =>
    have : D = [] := by simpa using hD
    subst this
    simp [drainEvents, someDeleted]
  | cons a rest =>
    have : D ≠ [] := by
      intro h; subst h; simp at hD
    unfold drainEvents
    rw [hD]
    cases D with
    | nil => exact absurd rfl this
    | cons b bs => simp [someDeleted]

theorem someDeleted_enqueueEvents (N : List Fn) (c : Fn) :
    someDeleted (enqueueEvents N c) = false := by
  simp [someDeleted, enqueueEvents]

theorem attemptBody_Changed {σ : Type} (sil : SIL σ) (st : Driver σ) (I : Inst) :
    (attemptBody sil st I).1.Changed = (st.Changed || someDead (attemptBody sil st I).2) ∧
    (attemptBody sil st I).1.Changed = (st.Changed || someDeleted (attemptBody sil st I).2) := by
  rcases attemptBody_cases sil st I with ⟨h, _⟩ | ⟨h, _⟩ | ⟨h1, c, h2, h3, h4⟩
  · rw [h]; simp [someDead, someDeleted]
  · rw [h]; simp [someDead, someDeleted]
  · rw [attemptBody_attempt_events sil st I c h1 h2 h3 h4,
      (attemptBody_attempt_state sil st I c h1 h2 h3 h4).2.1]
    have hd := drainEvents_proj (deadAppliesOf sil st.F I)
    have he := enqueueEvents_proj (newFunctionsOf sil st.F I) c
    constructor
    · rw [← List.singleton_append, someDead_append, someDead_append, hd.2.2.2.2.2,
        he.2.2.2.2.2]
      simp [someDead]
    · rw [← List.singleton_append, someDeleted_append, someDeleted_append,
        someDeleted_drainEvents, someDeleted_enqueueEvents]
      simp [someDeleted]

theorem scanBlock_someDeleted {σ : Type} (sil : SIL σ) (F : σ) (l : List Inst) :
    ∀ A : List Inst, someDeleted (scanBlock sil F l A).2 = false := by
  induction l with
  | nil => intro A; simp [scanBlock, someDeleted]
  | cons I rest ih =>
    intro A
    simp only [scanBlock, someDeleted_append, ih, Bool.or_false]
    rw [scanInst_snd]
    cases h1 : sil.isApply F I <;> cases h2 : sil.hasSubstitutions F I <;>
      cases h3 : sil.getReferencedFunctionOrNull F I <;> simp [someDeleted]
    rename_i c
    cases h4 : sil.isDefinition F c <;> simp

theorem run_Changed {σ : Type} (sil : SIL σ) (F : σ) :
    (specializeAppliesInFunction sil F).1.Changed
      = someDead (specializeAppliesInFunction sil F).2 ∧
    (specializeAppliesInFunction sil F).1.Changed
      = someDeleted (specializeAppliesInFunction sil F).2 := by
  have h := (run_induction sil
    (fun st res => res.1.Changed = (st.Changed || someDead res.2) ∧
      res.1.Changed = (st.Changed || someDeleted res.2))
    (by intro st; simp [someDead, someDeleted])
    (by
      rintro st r1 r2 ⟨a1, a2⟩ ⟨b1, b2⟩
      constructor
      · show r2.1.Changed = _
        rw [b1, a1, someDead_append, Bool.or_assoc]
      · show r2.1.Changed = _
        rw [b2, a2, someDeleted_append, Bool.or_assoc])
    (by
      intro st l
      simp [(scanBlock_proj sil st.F l st.Applies).2.2.2.2.2, scanBlock_someDeleted])
    (by
      intro st ys I _
      obtain ⟨c1, c2⟩ := attemptBody_Changed sil { st with Applies := ys } I
      constructor
      · show (attemptBody sil { st with Applies := ys } I).1.Changed = _
        rw [c1, ← List.singleton_append, someDead_append]
        simp [someDead]
      · show (attemptBody sil { st with Applies := ys } I).1.Changed = _
        rw [c2, ← List.singleton_append, someDeleted_append]
        simp [someDeleted])).2.2.2 F
  simpa [entryState] using h

theorem counts_invariant {σ : Type} (sil : SIL σ) :
    (∀ st k, (popsOf (processBlock sil st k).2).length + (processBlock sil st k).1.Applies.length
        ≤ st.Applies.length + (insertsOf (processBlock sil st k).2).length ∧
      (attemptsOf (processBlock sil st k).2).Sublist (popsOf (processBlock sil st k).2)) ∧
    (∀ F, (popsOf (specializeAppliesInFunction sil F).2).length
        + (specializeAppliesInFunction sil F).1.Applies.length
        ≤ (entryState F).Applies.length + (insertsOf (specializeAppliesInFunction sil F).2).length ∧
      (attemptsOf (specializeAppliesInFunction sil F).2).Sublist
        (popsOf (specializeAppliesInFunction sil F).2)) := by
  have h := run_induction sil
    (fun st res =>
      (popsOf res.2).length + res.1.Applies.length
        ≤ st.Applies.length + (insertsOf res.2).length ∧
      (attemptsOf res.2).Sublist (popsOf res.2))
    (by intro st; simp [popsOf, insertsOf, attemptsOf])
    (by
      rintro st r1 r2 ⟨a1, a2⟩ ⟨b1, b2⟩
      constructor
      · show (popsOf (r1.2 ++ r2.2)).length + r2.1.Applies.length ≤ _
        rw [popsOf_append, insertsOf_append, List.length_append, List.length_append]
        omega
      · show (attemptsOf (r1.2 ++ r2.2)).Sublist (popsOf (r1.2 ++ r2.2))
        rw [popsOf_append, attemptsOf_append]
        exact a2.append b2)
    (by
      intro st l
      obtain ⟨_, i2, i3, i4, _, _⟩ := scanBlock_proj sil st.F l st.Applies
      obtain ⟨added, e1, e2⟩ := scanBlock_appends sil st.F l st.Applies
      constructor
      · show (popsOf _).length + (scanBlock sil st.F l st.Applies).1.length ≤ _
        rw [i3, i2, e1, List.length_append]
        have := e2.length_le
        simp only [List.length_nil]
        omega
      · show (attemptsOf _).Sublist (popsOf _)
        rw [i3, i4])
    (by
      intro st ys I h
      obtain ⟨p1, _, p3, p4⟩ := attemptBody_proj sil { st with Applies := ys } I
      have hs := (attemptBody_Applies_sublist sil { st with Applies := ys } I).length_le
      constructor
      · show (popsOf (Event.pop I :: _)).length + _ ≤ _ + (insertsOf (Event.pop I :: _)).length
        rw [← List.singleton_append, popsOf_append, insertsOf_append, p1, p3, h]
        simp [popsOf, insertsOf] at hs ⊢
        omega
      · show (attemptsOf (Event.pop I :: _)).Sublist (popsOf (Event.pop I :: _))
        rw [← List.singleton_append, popsOf_append, attemptsOf_append, p1]
        rcases p4 with ha | ha <;> rw [ha] <;> simp [attemptsOf, popsOf])
  exact ⟨h.2.1, h.2.2.2⟩

theorem run_counts {σ : Type} (sil : SIL σ) (F : σ) :
    (popsOf (specializeAppliesInFunction sil F).2).length
      ≤ (insertsOf (specializeAppliesInFunction sil F).2).length ∧
    (attemptsOf (specializeAppliesInFunction sil F).2).Sublist
      (popsOf (specializeAppliesInFunction sil F).2) := by
  have h := (counts_invariant sil).2 F
  simp only [entryState, List.length_nil, Nat.zero_add] at h
  exact ⟨by omega, h.2⟩

/-- C3: the flag `Changed` that `specializeAppliesInFunction` returns is true if
and only if some engine call of the run left a non-empty dead set, which is the
case if and only if the deletion utility was called at least once.  In
particular it is false when no candidate was collected, when no popped
candidate reached the engine, and when every engine call left an empty dead
set. -/
theorem changed_iff_attempt_left_dead {σ : Type} (sil : SIL σ) (F : σ) :
    ((specializeAppliesInFunction sil F).1.Changed = true ↔
      ∃ I D N, Event.trySpecialize I D N ∈ (specializeAppliesInFunction sil F).2 ∧ D ≠ []) ∧
    ((specializeAppliesInFunction sil F).1.Changed = true ↔
      ∃ AI, Event.delete AI ∈ (specializeAppliesInFunction sil F).2) ∧
    (insertsOf (specializeAppliesInFunction sil F).2 = [] →
      (specializeAppliesInFunction sil F).1.Changed = false) ∧
    (attemptsOf (specializeAppliesInFunction sil F).2 = [] →
      (specializeAppliesInFunction sil F).1.Changed = false) ∧
    ((∀ I D N, Event.trySpecialize I D N ∈ (specializeAppliesInFunction sil F).2 → D = []) →
      (specializeAppliesInFunction sil F).1.Changed = false) := by
  obtain ⟨hc1, hc2⟩ := run_Changed sil F
  obtain ⟨hn1, hn2⟩ := run_counts sil F
  have key : (specializeAppliesInFunction sil F).1.Changed = true ↔
      ∃ I D N, Event.trySpecialize I D N ∈ (specializeAppliesInFunction sil F).2 ∧ D ≠ [] := by
    rw [hc1, someDead_iff]
  have noAttempt : attemptsOf (specializeAppliesInFunction sil F).2 = [] →
      (specializeAppliesInFunction sil F).1.Changed = false := by
    intro h
    cases hch : (specializeAppliesInFunction sil F).1.Changed with
    | false => rfl
    | true =>
      obtain ⟨I, D, N, hmem, _⟩ := key.mp hch
      have : I ∈ attemptsOf (specializeAppliesInFunction sil F).2 := by
        unfold attemptsOf
        rw [List.mem_filterMap]
        exact ⟨_, hmem, rfl⟩
      rw [h] at this
      cases this
  refine ⟨key, ?_, ?_, noAttempt, ?_⟩
  · rw [hc2, someDeleted_iff]
  · intro h
    apply noAttempt
    rw [h] at hn1
    have hp : popsOf (specializeAppliesInFunction sil F).2 = [] := by
      simpa using hn1
    rw [hp] at hn2
    simpa using hn2
  · intro h
    cases hch : (specializeAppliesInFunction sil F).1.Changed with
    | false => rfl
    | true =>
      obtain ⟨I, D, N, hmem, hne⟩ := key.mp hch
      exact absurd (h I D N hmem) hne

/-- C3 at explicit inputs: a function with no candidate, a function whose
candidates are all skipped at pop time, and an engine that declines every call
site. -/
theorem changed_iff_attempt_left_dead_witness :
    (specializeAppliesInFunction (moduleSIL cloneEngine) plainCallOfDeclaration).1.Changed
      = false ∧
    (specializeAppliesInFunction (moduleSIL cloneEngine)
      { threeCalls with shouldOptimize := fun _ => false }).1.Changed = false ∧
    (specializeAppliesInFunction (moduleSIL declineEngine) threeCalls).1.Changed = false :=
  ⟨(changed_iff_attempt_left_dead (moduleSIL cloneEngine) plainCallOfDeclaration).2.2.1
      (by decide),
   (changed_iff_attempt_left_dead (moduleSIL cloneEngine)
      { threeCalls with shouldOptimize := fun _ => false }).2.2.2.1 (by decide),
   (changed_iff_attempt_left_dead (moduleSIL declineEngine) threeCalls).2.2.2.2
      (by
        intro I D N h
        have hlog : (specializeAppliesInFunction (moduleSIL declineEngine) threeCalls).2 =
            [Event.visit 3, Event.insert 3, Event.visit 2, Event.insert 2, Event.visit 1,
             Event.visit 0, Event.insert 0, Event.pop 0, Event.trySpecialize 0 [] [],
             Event.pop 2, Event.trySpecialize 2 [] [], Event.pop 3,
             Event.trySpecialize 3 [] []] := by decide
        rw [hlog] at h
        simp at h
        rcases h with ⟨_, h, _⟩ | ⟨_, h, _⟩ | ⟨_, h, _⟩ <;> exact h)⟩

/-! ### C9: each call site is popped at most once -/

theorem attemptLoop_fuel_irrelevant {σ : Type} (sil : SIL σ) (f1 : Nat) :
    ∀ (f2 : Nat) (st : Driver σ), st.Applies.length ≤ f1 → st.Applies.length ≤ f2 →
      attemptLoop sil f1 st = attemptLoop sil f2 st := by
  induction f1 with
  | zero =>
    intro f2 st h1 _
    have : st.Applies = [] := by simpa using h1
    rw [attemptLoop_of_nil sil _ st this, attemptLoop_of_nil sil _ st this]
  | succ n ih =>
    intro f2 st h1 h2
    rcases List.eq_nil_or_concat st.Applies with h | ⟨ys, I, h⟩
    · rw [attemptLoop_of_nil sil _ st h, attemptLoop_of_nil sil _ st h]
    · rw [List.concat_eq_append] at h
      cases f2 with
      | zero => rw [h] at h2; simp at h2
      | succ m =>
        rw [attemptLoop_of_concat sil n st ys I h, attemptLoop_of_concat sil m st ys I h]
        have hs := (attemptBody_Applies_sublist sil { st with Applies := ys } I).length_le
        rw [h] at h1 h2
        simp at h1 h2 hs
        rw [ih m _ (by omega) (by omega)]

theorem processBlock_drains {σ : Type} (sil : SIL σ) (st : Driver σ) (k : Nat)
    (hok : (processBlock sil st k).1.assertFailed = false) :
    (processBlock sil st k).1.Applies = [] := by
  unfold processBlock at hok ⊢
  split
  · rename_i hf
    rw [if_pos hf] at hok
    rw [hf] at hok
    cases hok
  · rename_i hf
    rw [if_neg hf] at hok
    exact attemptLoop_drains sil _ _ (Nat.le_refl _) hok

theorem count_invariant {σ : Type} (sil : SIL σ) (a : Inst) :
    (∀ st k, List.count a (popsOf (processBlock sil st k).2)
        + List.count a (processBlock sil st k).1.Applies
      ≤ List.count a st.Applies + List.count a (visitsOf (processBlock sil st k).2)) ∧
    (∀ ks st, List.count a (popsOf (blockLoop sil ks st).2)
        + List.count a (blockLoop sil ks st).1.Applies
      ≤ List.count a st.Applies + List.count a (visitsOf (blockLoop sil ks st).2)) ∧
    (∀ F, List.count a (popsOf (specializeAppliesInFunction sil F).2)
      ≤ List.count a (visitsOf (specializeAppliesInFunction sil F).2)) := by
  have h := run_induction sil
    (fun st res =>
      List.count a (popsOf res.2) + List.count a res.1.Applies
        ≤ List.count a st.Applies + List.count a (visitsOf res.2))
    (by intro st; simp [popsOf, visitsOf])
    (by
      intro st r1 r2 a1 b1
      show List.count a (popsOf (r1.2 ++ r2.2)) + List.count a r2.1.Applies ≤
        List.count a st.Applies + List.count a (visitsOf (r1.2 ++ r2.2))
      rw [popsOf_append, visitsOf_append, List.count_append, List.count_append]
      omega)
    (by
      intro st l
      obtain ⟨i1, _, i3, _, _, _⟩ := scanBlock_proj sil st.F l st.Applies
      obtain ⟨added, e1, e2⟩ := scanBlock_appends sil st.F l st.Applies
      show List.count a (popsOf _) + List.count a (scanBlock sil st.F l st.Applies).1 ≤ _
      rw [i3, i1, e1, List.count_append]
      have := (e2.trans (List.filter_sublist l)).count_le a
      simp only [List.count_nil]
      omega)
    (by
      intro st ys I h
      obtain ⟨p1, p2, _, _⟩ := attemptBody_proj sil { st with Applies := ys } I
      have hs := (attemptBody_Applies_sublist sil { st with Applies := ys } I).count_le a
      show List.count a (popsOf (Event.pop I :: _)) + _ ≤
        _ + List.count a (visitsOf (Event.pop I :: _))
      rw [← List.singleton_append, popsOf_append, visitsOf_append, p1, p2, h]
      simp only [popsOf, visitsOf, List.filterMap_cons, List.filterMap_nil, List.append_nil,
        List.count_nil, Nat.add_zero, List.count_append] at hs ⊢
      omega)
  refine ⟨h.2.1, h.2.2.1, fun F => ?_⟩
  have := h.2.2.2 F
  simp only [entryState, List.count_nil, Nat.zero_add] at this
  omega

theorem processBlock_counts {σ : Type} (sil : SIL σ) (st : Driver σ) (k : Nat) :
    (popsOf (processBlock sil st k).2).length + (processBlock sil st k).1.Applies.length
      ≤ st.Applies.length + (insertsOf (processBlock sil st k).2).length ∧
    (attemptsOf (processBlock sil st k).2).Sublist (popsOf (processBlock sil st k).2) :=
  (counts_invariant sil).1 st k

theorem scanBlock_nodup {σ : Type} (sil : SIL σ) (F : σ) (l : List Inst) :
    ∀ A : List Inst, A.Nodup → (scanBlock sil F l A).1.Nodup := by
  induction l with
  | nil => intro A h; simpa [scanBlock] using h
  | cons I rest ih =>
    intro A h
    simp only [scanBlock]
    apply ih
    rw [scanInst_fst]
    split
    · exact nodup_setVector_insert A I h
    · exact h

/-- C9: within one run every instruction is popped at most as many times as the
scans met it; so, when no instruction is met twice (the function's instructions
have unique identities and each belongs to one block), every call site is
popped, and passed to the engine, at most once.  The scan leaves no repetition
in the work set, the attempt loop makes no `insert` call, each iteration
shortens the work set by at least the popped element, the attempts for a block
are at most as many as the `insert` calls of its scan, and the attempt loop
ends with an empty work set unless an assertion fails; a larger bound on the
number of iterations gives the same result. -/
theorem call_site_popped_at_most_once {σ : Type} (sil : SIL σ) (F : σ) :
    (∀ a, List.count a (popsOf (specializeAppliesInFunction sil F).2)
      ≤ List.count a (visitsOf (specializeAppliesInFunction sil F).2)) ∧
    ((visitsOf (specializeAppliesInFunction sil F).2).Nodup →
      (popsOf (specializeAppliesInFunction sil F).2).Nodup ∧
      (attemptsOf (specializeAppliesInFunction sil F).2).Nodup) ∧
    (∀ (M : σ) (l A : List Inst), A.Nodup → (scanBlock sil M l A).1.Nodup) ∧
    (∀ fuel st, insertsOf (attemptLoop sil fuel st).2 = []) ∧
    (∀ (st : Driver σ) (ys : List Inst) (I : Inst), st.Applies = ys ++ [I] →
      (attemptBody sil { st with Applies := ys } I).1.Applies.length < st.Applies.length) ∧
    (∀ st k, st.Applies = [] →
      (attemptsOf (processBlock sil st k).2).length
        ≤ (insertsOf (processBlock sil st k).2).length) ∧
    (∀ st k, (processBlock sil st k).1.assertFailed = false →
      (processBlock sil st k).1.Applies = []) ∧
    (∀ (st : Driver σ) (fuel : Nat), st.Applies.length ≤ fuel →
      attemptLoop sil fuel st = attemptLoop sil st.Applies.length st) := by
  have hcount := fun a => (count_invariant sil a).2.2 F
  refine ⟨hcount, ?_, scanBlock_nodup sil, fun fuel st => (attemptLoop_no_scan sil fuel st).2,
    ?_, ?_, processBlock_drains sil, ?_⟩
  · intro hv
    have hp : (popsOf (specializeAppliesInFunction sil F).2).Nodup := by
      rw [List.nodup_iff_count_le_one] at hv ⊢
      intro a
      exact (hcount a).trans (hv a)
    exact ⟨hp, (run_counts sil F).2.nodup hp⟩
  · intro st ys I h
    have hs := (attemptBody_Applies_sublist sil { st with Applies := ys } I).length_le
    rw [h]
    simp at hs ⊢
    omega
  · intro st k h0
    obtain ⟨c1, c2⟩ := processBlock_counts sil st k
    have := c2.length_le
    rw [h0] at c1
    simp only [List.length_nil, Nat.zero_add] at c1
    omega
  · intro st fuel h
    exact attemptLoop_fuel_irrelevant sil fuel _ st h (Nat.le_refl _)

/-- C9 at an explicit input: the run on `twoBlocks` meets each instruction once,
so it pops each call site at most once. -/
theorem call_site_popped_at_most_once_witness :
    (popsOf (specializeAppliesInFunction (moduleSIL cloneEngine) twoBlocks).2).Nodup ∧
    (attemptsOf (specializeAppliesInFunction (moduleSIL cloneEngine) twoBlocks).2).Nodup :=
  (call_site_popped_at_most_once (moduleSIL cloneEngine) twoBlocks).2.1 (by decide)

/-! ### C10: blocks are handled one at a time -/

theorem processBlock_of_failed {σ : Type} (sil : SIL σ) (st : Driver σ) (k : Nat)
    (h : st.assertFailed = true) : processBlock sil st k = (st, []) := by
  simp [processBlock, h]

theorem blockLoop_of_failed {σ : Type} (sil : SIL σ) (ks : List Nat) :
    ∀ st : Driver σ, st.assertFailed = true → blockLoop sil ks st = (st, []) := by
  induction ks with
  | nil => intro st _; rfl
  | cons k ks ih =>
    intro st h
    simp only [blockLoop]
    rw [processBlock_of_failed sil st k h, ih st h]
    rfl

theorem blockLoop_append {σ : Type} (sil : SIL σ) (ks ls : List Nat) :
    ∀ st : Driver σ,
      blockLoop sil (ks ++ ls) st =
        ((blockLoop sil ls (blockLoop sil ks st).1).1,
          (blockLoop sil ks st).2 ++ (blockLoop sil ls (blockLoop sil ks st).1).2) := by
  induction ks with
  | nil => intro st; simp [blockLoop]
  | cons k ks ih =>
    intro st
    show blockLoop sil (k :: (ks ++ ls)) st = _
    simp only [blockLoop]
    rw [ih]
    simp only [List.append_assoc]

theorem blockLoop_drains {σ : Type} (sil : SIL σ) (ks : List Nat) :
    ∀ st : Driver σ, st.Applies = [] → (blockLoop sil ks st).1.assertFailed = false →
      (blockLoop sil ks st).1.Applies = [] := by
  induction ks with
  | nil => intro st h _; exact h
  | cons k ks ih =>
    intro st _ hok
    simp only [blockLoop] at hok ⊢
    cases hf : (processBlock sil st k).1.assertFailed with
    | true =>
      rw [blockLoop_of_failed sil ks _ hf] at hok
      rw [hf] at hok
      cases hok
    | false => exact ih _ (processBlock_drains sil st k hf) hok

/-- C10, as stated, fails: on `oneCallPerBlock` the candidate `0` of block 0 is
popped and passed to the engine before block 1 is scanned; the `insert` of the
candidate `1` of block 1 comes after that attempt, and the work set the first
attempt loop starts from is `[0]`. -/
theorem attempts_start_before_later_blocks_are_scanned :
    (specializeAppliesInFunction (moduleSIL declineEngine) oneCallPerBlock).2 =
      [Event.visit 0, Event.insert 0, Event.pop 0, Event.trySpecialize 0 [] [],
       Event.visit 1, Event.insert 1, Event.pop 1, Event.trySpecialize 1 [] []] ∧
    insertsPrecedePops
      (specializeAppliesInFunction (moduleSIL declineEngine) oneCallPerBlock).2 = false ∧
    isCandidate (moduleSIL declineEngine) oneCallPerBlock 1 = true ∧
    (scanBlock (moduleSIL declineEngine) oneCallPerBlock
      (((moduleSIL declineEngine).blocks oneCallPerBlock).getD 0 []).reverse
      (entryState oneCallPerBlock).Applies).1 = [0] := by
  decide

/-- C10, amended: the run handles the blocks one after another.  The run over
the first `k + 1` blocks is the run over the first `k` blocks followed by the
scan and the attempt loop of block `k`; when block `k` is reached the work set
is empty, so the attempt loop of block `k` starts from a work set that holds
exactly the candidates of block `k`; and the run ends with an empty work set. -/
theorem blocks_are_handled_one_at_a_time {σ : Type} (sil : SIL σ) (F : σ) (k : Nat) :
    blockLoop sil (List.range (k + 1)) (entryState F) =
      ((processBlock sil (blockLoop sil (List.range k) (entryState F)).1 k).1,
        (blockLoop sil (List.range k) (entryState F)).2 ++
          (processBlock sil (blockLoop sil (List.range k) (entryState F)).1 k).2) ∧
    ((blockLoop sil (List.range k) (entryState F)).1.assertFailed = false →
      (blockLoop sil (List.range k) (entryState F)).1.Applies = [] ∧
      ∀ I, I ∈ (scanBlock sil (blockLoop sil (List.range k) (entryState F)).1.F
            ((sil.blocks (blockLoop sil (List.range k) (entryState F)).1.F).getD k []).reverse
            (blockLoop sil (List.range k) (entryState F)).1.Applies).1 ↔
          I ∈ (sil.blocks (blockLoop sil (List.range k) (entryState F)).1.F).getD k [] ∧
            isCandidate sil (blockLoop sil (List.range k) (entryState F)).1.F I = true) ∧
    ((specializeAppliesInFunction sil F).1.assertFailed = false →
      (specializeAppliesInFunction sil F).1.Applies = []) := by
  refine ⟨?_, ?_, ?_⟩
  · rw [List.range_succ, blockLoop_append]
    simp [blockLoop]
  · intro hok
    have h0 := blockLoop_drains sil (List.range k) (entryState F) rfl hok
    refine ⟨h0, fun I => ?_⟩
    rw [scanBlock_fst_mem, h0, List.mem_reverse]
    simp
  · intro hok
    exact blockLoop_drains sil _ (entryState F) rfl hok

/-- C10, amended, at an explicit input: when the run on `oneCallPerBlock` reaches
block 1 the work set is empty. -/
theorem blocks_are_handled_one_at_a_time_witness :
    (blockLoop (moduleSIL cloneEngine) (List.range 1) (entryState oneCallPerBlock)).1.Applies
      = [] ∧
    (specializeAppliesInFunction (moduleSIL cloneEngine) oneCallPerBlock).1.Applies = [] :=
  ⟨((blocks_are_handled_one_at_a_time (moduleSIL cloneEngine) oneCallPerBlock 1).2.1
      (by decide)).1,
   (blocks_are_handled_one_at_a_time (moduleSIL cloneEngine) oneCallPerBlock 1).2.2
      (by decide)⟩

/-! ### C1: the attempt order within a block -/

theorem mem_popsOf_iff (log : List Event) (x : Inst) : x ∈ popsOf log ↔ Event.pop x ∈ log := by
  unfold popsOf
  rw [List.mem_filterMap]
  constructor
  · rintro ⟨e, he, h⟩
    cases e <;> simp at h
    subst h
    exact he
  · intro h
    exact ⟨_, h, rfl⟩

theorem mem_attemptsOf_iff (log : List Event) (x : Inst) :
    x ∈ attemptsOf log ↔ ∃ D N, Event.trySpecialize x D N ∈ log := by
  unfold attemptsOf
  rw [List.mem_filterMap]
  constructor
  · rintro ⟨e, he, h⟩
    cases e <;> simp at h
    subst h
    exact ⟨_, _, he⟩
  · rintro ⟨D, N, h⟩
    exact ⟨_, h, rfl⟩

theorem infix_flatMap_of_mem_events (l : List Inst) (f : Inst → List Event) (x : Inst)
    (h : x ∈ l) : f x <:+: l.flatMap f := by
  induction l with
  | nil => cases h
  | cons a rest ih =>
    rw [List.flatMap_cons]
    rcases List.mem_cons.mp h with rfl | h
    · exact (List.prefix_append _ _).isInfix
    · exact (ih h).trans (List.suffix_append _ _).isInfix

/-- C8: in an iteration that calls the engine, every instruction `AI` that the
engine put in the dead set is removed from the work set and then deleted (the
two calls are adjacent in the record, in this order), the removal being a no-op
when `AI` is not in the work set; after the iteration `AI` is not in the work
set, and no later iteration of the attempt loop pops it or passes it to the
engine; nor does the rest of the run, over whatever blocks follow, as long as no
later scan meets `AI` again. -/
theorem dead_applies_leave_work_set {σ : Type} (sil : SIL σ) (st : Driver σ) (I : Inst)
    (Callee : Fn)
    (hnd : st.Applies.Nodup)
    (h1 : sil.isApply st.F I = true)
    (h2 : sil.getReferencedFunctionOrNull st.F I = some Callee)
    (h3 : sil.canOptimize st.F I = true)
    (h4 : sil.shouldOptimize st.F Callee = true)
    (AI : Inst) (hAI : AI ∈ (sil.trySpecializeApplyOfGeneric st.F I).DeadApplies) :
    [Event.remove AI, Event.delete AI] <:+: (attemptBody sil st I).2 ∧
    (AI ∉ st.Applies → SetVector.remove st.Applies AI = st.Applies) ∧
    AI ∉ (attemptBody sil st I).1.Applies ∧
    (∀ fuel, Event.pop AI ∉ (attemptLoop sil fuel (attemptBody sil st I).1).2 ∧
      ∀ D N, Event.trySpecialize AI D N ∉ (attemptLoop sil fuel (attemptBody sil st I).1).2) ∧
    (∀ fuel ks,
      AI ∉ visitsOf (blockLoop sil ks (attemptLoop sil fuel (attemptBody sil st I).1).1).2 →
      Event.pop AI ∉ (blockLoop sil ks (attemptLoop sil fuel (attemptBody sil st I).1).1).2) := by
  have hmem : AI ∈ deadAppliesOf sil st.F I := by
    unfold deadAppliesOf
    rw [mem_foldl_setVector_insert]
    exact Or.inr hAI
  have hnot : AI ∉ (attemptBody sil st I).1.Applies := by
    rw [(attemptBody_attempt_state sil st I Callee h1 h2 h3 h4).1, hnd.mem_diff_iff,
      List.mem_reverse]
    exact fun h => h.2 hmem
  have hpop : ∀ fuel, AI ∉ popsOf (attemptLoop sil fuel (attemptBody sil st I).1).2 := by
    intro fuel hp
    have := (attemptLoop_pops_sublist sil fuel (attemptBody sil st I).1).subset hp
    exact hnot (List.mem_reverse.mp this)
  refine ⟨?_, fun h => List.erase_of_not_mem h, hnot, fun fuel => ⟨?_, ?_⟩, ?_⟩
  · rw [attemptBody_attempt_events sil st I Callee h1 h2 h3 h4]
    have hin : [Event.remove AI, Event.delete AI] <:+: drainEvents (deadAppliesOf sil st.F I) :=
      infix_flatMap_of_mem_events _ (fun AI => [Event.remove AI, Event.delete AI]) AI
        (List.mem_reverse.mpr hmem)
    obtain ⟨s, t, hst⟩ := hin
    refine ⟨Event.trySpecialize I (deadAppliesOf sil st.F I) (newFunctionsOf sil st.F I) :: s,
      t ++ enqueueEvents (newFunctionsOf sil st.F I) Callee, ?_⟩
    rw [← hst]
    simp
  · intro h
    exact hpop fuel ((mem_popsOf_iff _ _).mpr h)
  · intro D N h
    have ha : AI ∈ attemptsOf (attemptLoop sil fuel (attemptBody sil st I).1).2 :=
      (mem_attemptsOf_iff _ _).mpr ⟨D, N, h⟩
    exact hpop fuel ((attemptLoop_attempts_sublist sil fuel _).subset ha)
  · intro fuel ks hv hp
    have hA : AI ∉ (attemptLoop sil fuel (attemptBody sil st I).1).1.Applies :=
      fun h => hnot ((attemptLoop_Applies_sublist sil fuel _).subset h)
    have hc := (count_invariant sil AI).2.1 ks (attemptLoop sil fuel (attemptBody sil st I).1).1
    rw [List.count_eq_zero_of_not_mem hA, List.count_eq_zero_of_not_mem hv] at hc
    have hpos : 0 < List.count AI
        (popsOf (blockLoop sil ks (attemptLoop sil fuel (attemptBody sil st I).1).1).2) :=
      List.count_pos_iff.mpr ((mem_popsOf_iff _ _).mpr hp)
    omega

/-- C8 at an explicit input: in `threeCalls` the scan collects `[3, 2, 0]`; after
`0` has been popped the engine reports `0` and the later candidate `2` dead;
`2` leaves the work set. -/
theorem dead_applies_leave_work_set_witness :
    2 ∉ (attemptBody (moduleSIL deadUserEngine)
      { F := threeCalls, Applies := [3, 2], Changed := false, assertFailed := false }
      0).1.Applies :=
  (dead_applies_leave_work_set (moduleSIL deadUserEngine)
    { F := threeCalls, Applies := [3, 2], Changed := false, assertFailed := false } 0 7
    (by decide) (by decide) (by decide) (by decide) (by decide) 2 (by decide)).2.2.1

end GenericSpecializer
